import Mathlib

/-!
A shallow embedding of the 2048 n-tuple-network learning agent
(`agent.h`): the pattern table, feature encoder, network value function,
2-ply expectimax search, backward TD learning loop, weight
initialization and weight persistence.  Floating-point values are
modelled as exact rationals; the IEEE non-finite results (NaN from the
unguarded 0/0 division in the chance node) are modelled by `Option ℚ`
with `none` standing for a non-finite value.
-/

namespace TCG

/-- Constant from the source: the max tile index that can occur. -/
def MAX_INDEX : ℕ := 23

/-- Constant from the source: the number of tuples (patterns). -/
def tuple_number : ℕ := 32

/-- Constant from the source: the length of each tuple. -/
def tuple_length : ℕ := 6

/-- Constant from the source: `powl(MAX_INDEX, tuple_length)`, exact. -/
def map_size : ℕ := MAX_INDEX ^ tuple_length

/-- Constant from the source: `1e-5`, modelled as an exact rational. -/
def epsilon : ℚ := 1 / 100000

/-- Constant from the source: the trace blending factor `lembda = 0.5`. -/
def lembda : ℚ := 1 / 2

/-- Constant from the source: `-std::numeric_limits<float>::max()`,
the exact value of `-FLT_MAX` as a rational. -/
def MIN_FLOAT : ℚ := -((2 ^ 24 - 1) * 2 ^ 104)

/-- A board is a 4x4 grid of tile ranks addressed by linear index 0..15
(the source reads cell `i` as `boardstate[i / 4][i % 4]`). -/
abbrev Board : Type := Fin 16 → ℕ

/-- Cell write, `after(pos) = tile` in the source. -/
def setCell (b : Board) (pos : Fin 16) (v : ℕ) : Board :=
  fun j => if j = pos then v else b j

/-- The all-zero board, the default-constructed `board()`. -/
def dBoard : Board := fun _ => 0

/-- A weight table, indexed by feature index.  The source's `weight` is
a flat array of `map_size` floats; we model it as a total function and
only ever read indices below `map_size`. -/
abbrev Table : Type := ℕ → ℚ

/-- The zero-initialized weight table. -/
def zeroTable : Table := fun _ => 0

/-- Read table `i` of a table vector, `nets[i][f]` in the source. -/
def tbl (l : List Table) (i : ℕ) (f : ℕ) : ℚ :=
  (l.getD i zeroTable) f

/-- Single-cell write into a table, `t[i] = v`. -/
def writeT (t : Table) (i : ℕ) (v : ℚ) : Table :=
  fun j => if j = i then v else t j

/-- In-place accumulation `nets[o][f] += d` on a vector of tables. -/
def updT : List Table → ℕ → ℕ → ℚ → List Table
  | [], _, _, _ => []
  | t :: ts, 0, f, d => (fun j => if j = f then t j + d else t j) :: ts
  | t :: ts, o + 1, f, d => t :: updT ts o f d

/-- The static pattern table `agent::pattern`: 32 six-cell coordinate
sequences, grouped in 4 orbits of 8 consecutive patterns. -/
def pattern : List (List (Fin 16)) := [
  [3,2,1,0,4,5],
  [0,4,8,12,13,9],
  [12,13,14,15,11,10],
  [15,11,7,3,2,6],
  [0,1,2,3,7,6],
  [12,8,4,0,1,5],
  [15,14,13,12,8,9],
  [3,7,11,15,14,10],

  [7,6,5,4,8,9],
  [4,5,6,7,11,10],
  [11,10,9,8,4,5],
  [8,9,10,11,7,6],
  [13,9,5,1,2,6],
  [1,5,9,13,14,10],
  [14,10,6,2,1,5],
  [2,6,10,14,13,9],

  [0,1,5,9,8,4],
  [0,4,5,6,2,1],
  [3,7,6,5,1,2],
  [3,2,6,10,11,7],
  [12,13,9,5,4,8],
  [12,8,9,10,14,13],
  [15,11,10,9,13,14],
  [15,14,10,6,7,11],

  [1,2,6,10,9,5],
  [2,1,5,9,10,6],
  [8,4,5,6,10,9],
  [4,8,9,10,6,5],
  [7,11,10,9,5,6],
  [11,7,6,5,9,10],
  [14,13,9,5,6,10],
  [13,14,10,6,5,9]]

/-- The feature encoder `player::get_feature`: fold the pattern cells
into a base-`MAX_INDEX` accumulator, clamping each cell rank to
`MAX_INDEX - 1`. -/
def get_feature (boardstate : Board) (p : List (Fin 16)) : ℕ :=
  p.foldl (fun encode i =>
    let tile := if boardstate i > MAX_INDEX - 1 then MAX_INDEX - 1 else boardstate i
    encode * MAX_INDEX + tile) 0

/-- The network value function `player::board_value`: sum, over the 32
patterns, of the orbit-shared table entry at the pattern's feature. -/
def board_value (net : List Table) (boardstate : Board) : ℚ :=
  (List.range tuple_number).foldl (fun value i =>
    value + tbl net (i / 8) (get_feature boardstate (pattern.getD i []))) 0

/-- Addition on float values modelled as `Option ℚ`; a non-finite
operand (NaN) propagates. -/
def fadd : Option ℚ → Option ℚ → Option ℚ
  | some a, some b => some (a + b)
  | _, _ => none

/-- Multiplication of a float value by a finite constant. -/
def fmul (x : Option ℚ) (c : ℚ) : Option ℚ :=
  x.map (fun a => a * c)

/-- Division of a float value by a finite float.  With a zero
denominator IEEE arithmetic produces a non-finite value (NaN for the
only reachable case, `0.0f / 0.0f` in the chance node), modelled
as `none`. -/
def fdiv (x : Option ℚ) (y : ℚ) : Option ℚ :=
  if y = 0 then none else x.map (fun a => a / y)

/-- IEEE `>` comparison: any comparison against NaN is false. -/
def fgt : Option ℚ → Option ℚ → Bool
  | some a, some b => decide (b < a)
  | _, _ => false

/-- Modelled from the spec: the board's `slide(direction)` primitive is
an external collaborator (`board.h` is outside the analysed sources).
A slide either fails (`none`, the reward `-1` sentinel, board
unchanged) or returns the slid board together with the merge score. -/
abbrev Slide : Type := Board → ℕ → Option (Board × ℤ)

/-- Modelled from the spec: the `action` type (`action.h` is outside
the analysed sources).  `action()` default-constructs the sentinel
no-op action, distinct from every `action::slide(op)` and every
`action::place(pos, tile)`. -/
inductive GameAction : Type where
  | nop : GameAction
  | slideAct : ℕ → GameAction
  | placeAct : ℕ → ℕ → GameAction
deriving DecidableEq

/-- The direction list `opcode = {0, 1, 2, 3}`, iterated in order. -/
def opcode : List ℕ := [0, 1, 2, 3]

/-- The loop body of `player::move_simulation`, abstracted over the
recursive call into `put_tile` at the decremented depth (`pt`), so
that the mutual recursion becomes structural in the depth. -/
def msBody (pt : Board → Option ℚ) (slide : Slide) (before : Board) : Option ℚ :=
  let acc := opcode.foldl (fun (acc : Option ℚ × Bool) op =>
    match slide before op with
    | none => acc
    | some (after, reward) =>
      let expectation := pt after
      let cand := fadd expectation (some (reward : ℚ))
      if fgt cand acc.1 then (cand, true) else acc)
    ((some MIN_FLOAT : Option ℚ), false)
  if acc.2 then acc.1 else some 0

/-- The chance node `player::put_tile`: at depth 0 return the static
value; otherwise sum, over every empty cell and tile rank 1 (weight
0.9) and 2 (weight 0.1), the best-response value of the board with the
tile placed (the `move_simulation` call at the same depth, here the
inlined `msBody` recursing at depth `d`), then divide by the number of
empty cells.  The division is unguarded: with zero empty cells it is
`0.0f / 0.0f`, i.e. NaN (`none`).  `ptBody` is the loop body over one
cell position, abstracted (like `msBody`) over the recursive call. -/
def ptBody (pt : Board → Option ℚ) (slide : Slide) (before : Board)
    (acc : Option ℚ × ℚ) (pos : Fin 16) : Option ℚ × ℚ :=
  if before pos ≠ 0 then acc
  else
    let e1 := fadd acc.1 (fmul (msBody pt slide (setCell before pos 1)) (9 / 10))
    let e2 := fadd e1 (fmul (msBody pt slide (setCell before pos 2)) (1 / 10))
    (e2, acc.2 + 1)

/-- The chance-node recursion itself, structural in the depth. -/
def put_tile (slide : Slide) (net : List Table) : Board → ℕ → Option ℚ
  | before, 0 => some (board_value net before)
  | before, d + 1 =>
    let acc := (List.finRange 16).foldl
      (ptBody (fun bb => put_tile slide net bb d) slide before)
      ((some 0 : Option ℚ), (0 : ℚ))
    fdiv acc.1 acc.2

/-- The best-response node `player::move_simulation`: try the 4 slides
and return the best `reward + put_tile(afterstate, depth - 1)`, or 0
when no slide is valid.  (For `depth = 0` the C++ recursion never
terminates; that argument is unreachable — `move_simulation` is only
invoked with a positive depth — and the model evaluates `put_tile` at
depth 0 there.) -/
def move_simulation (slide : Slide) (net : List Table) (before : Board) (depth : ℕ) : Option ℚ :=
  msBody (fun bb => put_tile slide net bb (depth - 1)) slide before

/-- An episode history entry, `player::state`. -/
structure HEntry : Type where
  afterstate : Board
  reward : ℤ

/-- The default-constructed history entry. -/
def dEntry : HEntry := ⟨dBoard, 0⟩

/-- The mutable state of a `player`: the three table vectors of
`weight_agent`, the learning rate and the episode history. -/
structure PlayerState : Type where
  net : List Table
  net_E : List Table
  net_A : List Table
  alpha : ℚ
  history : List HEntry

/-- The decision node `player::take_action`: slide each direction on a
copy, skip invalid ones, evaluate `put_tile(after, 1)`, keep the best
`expectation + reward`; push the best afterstate and reward onto
history unless no candidate beat the `MIN_FLOAT` sentinel; always
return `action::slide(best_op)` with `best_op` initialized to 0. -/
def take_action (slide : Slide) (s : PlayerState) (before : Board) :
    GameAction × PlayerState :=
  let acc := opcode.foldl (fun (acc : ℕ × ℤ × Option ℚ × Board) op =>
    match slide before op with
    | none => acc
    | some (after, reward) =>
      let expectation := put_tile slide s.net after 1
      if fgt (fadd expectation (some (reward : ℚ)))
             (fadd acc.2.2.1 (some (acc.2.1 : ℚ)))
      then (op, reward, expectation, after)
      else acc)
    (0, 0, (some MIN_FLOAT : Option ℚ), dBoard)
  let s1 := if acc.2.2.1 ≠ some MIN_FLOAT
    then { s with history := s.history ++ [⟨acc.2.2.2, acc.2.1⟩] }
    else s
  (GameAction.slideAct acc.1, s1)

/-- One iteration of the update loop shared verbatim by both
`player::train_weights` overloads: at pattern `i`, with the feature of
the trained board, the adaptive rate `|E[f]| / A[f]` is read from the
current tables and the three tables receive `history_value * rate / 8`,
`delta / 8` and `|delta| / 8` respectively. -/
def tw_loop_step (b : Board) (delta hv : ℚ) (s : PlayerState) (i : ℕ) : PlayerState :=
  let feature := get_feature b (pattern.getD i [])
  let learning_rate := |tbl s.net_E (i / 8) feature| / tbl s.net_A (i / 8) feature
  { s with
    net := updT s.net (i / 8) (get_feature b (pattern.getD i [])) (hv * learning_rate / 8),
    net_E := updT s.net_E (i / 8) feature (delta / 8),
    net_A := updT s.net_A (i / 8) feature (|delta| / 8) }

/-- The full `for (i = 0; i < tuple_number; i++)` update loop. -/
def tw_loop (b : Board) (delta hv : ℚ) (s : PlayerState) : PlayerState :=
  (List.range tuple_number).foldl (tw_loop_step b delta hv) s

/-- The backward-step overload of `player::train_weights`: TD error
`delta = reward + value(next) - value(prev)`, trace update
`history_value = alpha * delta + history_value * lembda`, then the
table loop on the previous afterstate.  Returns the updated state and
the new by-reference `history_value`. -/
def train_weights_bw (s : PlayerState) (prev_board next_board : Board)
    (reward : ℚ) (history_value : ℚ) : PlayerState × ℚ :=
  let delta := reward + board_value s.net next_board - board_value s.net prev_board
  let hv := s.alpha * delta + history_value * lembda
  (tw_loop prev_board delta hv s, hv)

/-- The terminal-step overload of `player::train_weights`: the TD
target is 0, `delta = value(final_board)`, and the trace is seeded as
`history_value = -alpha * delta` (the incoming value is overwritten),
then the same table loop runs on the final afterstate. -/
def train_weights_final (s : PlayerState) (final_board : Board)
    (history_value : ℚ) : PlayerState × ℚ :=
  let delta := board_value s.net final_board
  let hv := -s.alpha * delta
  (tw_loop final_board delta hv s, hv)

/-- The learning driver `player::close_episode`: a terminal step on
`history[size - 1]`, then backward steps for `i = size - 2` down to 0,
then the history is cleared.  With an empty history the very first
access `history[history.size() - 1]` reads index `2^64 - 1`, out of
bounds (undefined behavior), modelled as `none`. -/
def close_episode (s : PlayerState) : Option PlayerState :=
  if s.history.length = 0 then none
  else
    let p1 := train_weights_final s
      ((s.history.getD (s.history.length - 1) dEntry).afterstate) 0
    let p2 := ((List.range (s.history.length - 1)).reverse).foldl
      (fun (acc : PlayerState × ℚ) i =>
        train_weights_bw acc.1 ((s.history.getD i dEntry).afterstate)
          ((s.history.getD (i + 1) dEntry).afterstate)
          (((s.history.getD (i + 1) dEntry).reward : ℚ)) acc.2) p1
    some { p2.1 with history := [] }

/-- The base-23 index expression of the `init_weights` heuristic loop,
`((((i1*23 + i2)*23 + i3)*23 + i4)*23 + i5)*23 + i6`. -/
def idx6 (i1 i2 i3 i4 i5 i6 : ℕ) : ℕ :=
  ((((i1 * MAX_INDEX + i2) * MAX_INDEX + i3) * MAX_INDEX + i4) * MAX_INDEX + i5)
    * MAX_INDEX + i6

/-- The heuristic seeding loop of `weight_agent::init_weights`: over
all `i1..i5 < 23` and `i6 ∈ [20, 23)`, write the bonus 5000 at the six
indices placing `i6` at each digit position, starting from the
zero-initialized table. -/
def init_net0 : Table :=
  (List.range MAX_INDEX).foldl (fun t i1 =>
    (List.range MAX_INDEX).foldl (fun t i2 =>
      (List.range MAX_INDEX).foldl (fun t i3 =>
        (List.range MAX_INDEX).foldl (fun t i4 =>
          (List.range MAX_INDEX).foldl (fun t i5 =>
            (List.range' 20 (MAX_INDEX - 20)).foldl (fun t i6 =>
              writeT (writeT (writeT (writeT (writeT (writeT t
                (idx6 i1 i2 i3 i4 i5 i6) 5000)
                (idx6 i1 i2 i3 i4 i6 i5) 5000)
                (idx6 i1 i2 i3 i6 i5 i4) 5000)
                (idx6 i1 i2 i6 i4 i5 i3) 5000)
                (idx6 i1 i6 i3 i4 i5 i2) 5000)
                (idx6 i6 i2 i3 i4 i5 i1) 5000) t) t) t) t) t) zeroTable

/-- The `net_A[0]` initialization loop: every index below `map_size`
of the fresh zero table is set to `epsilon`. -/
def init_netA0 : Table :=
  (List.range map_size).foldl (fun t i => writeT t i epsilon) zeroTable

/-- The whole `weight_agent::init_weights`: `net` is 4 copies of the
heuristically seeded table, and `net_A` and `net_E` are each 4 copies
of the epsilon-seeded table.  The learning rate is set separately by
the constructor from the `alpha` argument, and the history starts
empty. -/
def init_weights (alpha : ℚ) : PlayerState :=
  { net := [init_net0, init_net0, init_net0, init_net0],
    net_E := [init_netA0, init_netA0, init_netA0, init_netA0],
    net_A := [init_netA0, init_netA0, init_netA0, init_netA0],
    alpha := alpha,
    history := [] }

/-- Modelled from the spec: the on-disk weight record produced by
`weight_agent::save_weights` (the per-table stream operators live in
the external `weight.h`): a stored table count followed by the tables
in stream order; binary float round-trips are exact, so a serialized
table is modelled by the table itself. -/
structure WeightRecord : Type where
  size : ℕ
  tables : List Table

/-- `weight_agent::save_weights`: write
`size = net.size() + net_A.size() + net_E.size()` and then the tables
of `net`, `net_A` and `net_E`, in that order. -/
def save_weights (s : PlayerState) : WeightRecord :=
  { size := s.net.length + s.net_A.length + s.net_E.length,
    tables := s.net ++ s.net_A ++ s.net_E }

/-- `weight_agent::load_weights`: read the stored count, resize each
of `net`, `net_A`, `net_E` to `size / 3`, then fill them from the
stream in that order. -/
def load_weights (r : WeightRecord) (s : PlayerState) : PlayerState :=
  let k := r.size / 3
  { s with
    net := r.tables.take k,
    net_A := (r.tables.drop k).take k,
    net_E := ((r.tables.drop k).drop k).take k }

/-- Modelled from the spec: merging one compacted line of the external
board primitive — adjacent equal ranks `r, r` merge into `r + 1`
earning the merge score `2 ^ (r + 1)`. -/
def mergeLine : List ℕ → List ℕ × ℕ
  | a :: b :: rest =>
    if a = b then
      let r := mergeLine rest
      ((a + 1) :: r.1, r.2 + 2 ^ (a + 1))
    else
      let r := mergeLine (b :: rest)
      (a :: r.1, r.2)
  | l => (l, 0)

/-- Read the cells of one line of the board, in slide order. -/
def getLine (b : Board) (ps : List (Fin 16)) : List ℕ := ps.map b

/-- Write values back along one line of the board. -/
def setLine (b : Board) (ps : List (Fin 16)) (vs : List ℕ) : Board :=
  (ps.zip vs).foldl (fun b pv => setCell b pv.1 pv.2) b

/-- Modelled from the spec: the four lines of the board for each slide
direction (0 up, 1 right, 2 down, 3 left), each listed from the edge
the tiles slide toward. -/
def dirLines : ℕ → List (List (Fin 16))
  | 0 => [[0, 4, 8, 12], [1, 5, 9, 13], [2, 6, 10, 14], [3, 7, 11, 15]]
  | 1 => [[3, 2, 1, 0], [7, 6, 5, 4], [11, 10, 9, 8], [15, 14, 13, 12]]
  | 2 => [[12, 8, 4, 0], [13, 9, 5, 1], [14, 10, 6, 2], [15, 11, 7, 3]]
  | _ => [[0, 1, 2, 3], [4, 5, 6, 7], [8, 9, 10, 11], [12, 13, 14, 15]]

/-- Slide every line of the board: compact the nonzero ranks, merge,
pad with empties, and accumulate the merge score. -/
def slideLines (b : Board) (lines : List (List (Fin 16))) : Board × ℕ :=
  lines.foldl (fun (acc : Board × ℕ) ps =>
    let m := mergeLine ((getLine b ps).filter (fun v => v ≠ 0))
    let padded := m.1 ++ List.replicate (4 - m.1.length) 0
    (setLine acc.1 ps padded, acc.2 + m.2)) (b, 0)

/-- Modelled from the spec: the external board's
`slide(direction) -> reward` primitive — apply the slide and return
the merge score, or the invalid sentinel (`none`) when the move leaves
the board unchanged. -/
def slide2048 : Slide := fun b op =>
  if op < 4 then
    let p := slideLines b (dirLines op)
    if p.1 = b then none else some (p.1, (p.2 : ℤ))
  else none

/-! Helper lemmas about the table primitives and the update loop. -/

theorem updT_length (l : List Table) (i f : ℕ) (d : ℚ) :
    (updT l i f d).length = l.length := by
  induction l generalizing i with
  | nil => rfl
  | cons t ts ih =>
    cases i with
    | zero => rfl
    | succ n => simp [updT, ih]

theorem tbl_updT (l : List Table) (i f : ℕ) (d : ℚ) (o g : ℕ) :
    tbl (updT l i f d) o g =
      if i = o ∧ f = g ∧ i < l.length then tbl l o g + d else tbl l o g := by
  induction l generalizing i o with
  | nil =>
    simp [updT, tbl]
  | cons t ts ih =>
    cases i with
    | zero =>
      cases o with
      | zero =>
        by_cases hg : f = g
        · subst hg
          simp [updT, tbl]
        · simp [updT, tbl, hg, Ne.symm hg]
      | succ m =>
        simp [updT, tbl]
    | succ n =>
      cases o with
      | zero =>
        simp [updT, tbl]
      | succ m =>
        have hcons : ∀ (x : Table) (xs : List Table) (k : ℕ),
            tbl (x :: xs) (k + 1) g = tbl xs k g := by
          intro x xs k
          simp [tbl]
        have hiff : (n + 1 = m + 1 ∧ f = g ∧ n + 1 < (t :: ts).length) ↔
            (n = m ∧ f = g ∧ n < ts.length) := by
          simp only [List.length_cons]
          constructor <;> rintro ⟨a, b, c⟩ <;> exact ⟨by omega, b, by omega⟩
        rw [show updT (t :: ts) (n + 1) f d = t :: updT ts n f d from rfl, hcons, hcons,
          ih n m, if_congr hiff rfl rfl]

theorem foldl_skip {α β : Type} (f : β → α → β) (l : List α) (acc : β)
    (h : ∀ b x, x ∈ l → f b x = b) : l.foldl f acc = acc := by
  induction l generalizing acc with
  | nil => rfl
  | cons a l ih =>
    rw [List.foldl_cons, h acc a (List.mem_cons_self a l)]
    exact ih acc (fun b x hx => h b x (List.mem_cons_of_mem a hx))

theorem foldl_writeT_mem (l : List ℕ) (t : Table) (v : ℚ) (i : ℕ) :
    (l.foldl (fun t j => writeT t j v) t) i = if i ∈ l then v else t i := by
  induction l generalizing t with
  | nil => simp
  | cons a l ih =>
    rw [List.foldl_cons, ih]
    by_cases hm : i ∈ l
    · simp [hm]
    · by_cases ha : i = a <;> simp [hm, ha, writeT]

theorem foldl_add_range (f : ℕ → ℚ) (n : ℕ) :
    (List.range n).foldl (fun v i => v + f i) 0 = ∑ i ∈ Finset.range n, f i := by
  induction n with
  | zero => rfl
  | succ n ih =>
    rw [List.range_succ, List.foldl_append, ih, Finset.sum_range_succ, List.foldl_cons,
      List.foldl_nil]

/-- The counting predicate of the update loop: pattern `i` touches
entry `g` of orbit table `o` of the trained board `b`. -/
def hitsP (b : Board) (o g : ℕ) : ℕ → Bool := fun i =>
  decide (i / 8 = o ∧ get_feature b (pattern.getD i []) = g)

theorem tw_fold_E (b : Board) (delta hv : ℚ) (l : List ℕ) (s : PlayerState)
    (h : ∀ i ∈ l, i / 8 < s.net_E.length) (o g : ℕ) :
    tbl (l.foldl (tw_loop_step b delta hv) s).net_E o g =
      tbl s.net_E o g + (l.countP (hitsP b o g) : ℚ) * (delta / 8) := by
  induction l generalizing s with
  | nil => simp
  | cons i l ih =>
    rw [List.foldl_cons]
    have hlen : (tw_loop_step b delta hv s i).net_E.length = s.net_E.length := by
      simp [tw_loop_step, updT_length]
    rw [ih (tw_loop_step b delta hv s i)
      (fun j hj => by rw [hlen]; exact h j (List.mem_cons_of_mem i hj)) ]
    have hstep : tbl (tw_loop_step b delta hv s i).net_E o g =
        tbl s.net_E o g + if hitsP b o g i then delta / 8 else 0 := by
      rw [show (tw_loop_step b delta hv s i).net_E =
        updT s.net_E (i / 8) (get_feature b (pattern.getD i [])) (delta / 8) from rfl,
        tbl_updT]
      have hlen2 : i / 8 < s.net_E.length := h i (List.mem_cons_self i l)
      by_cases ho : i / 8 = o
      · by_cases hg : get_feature b (pattern.getD i []) = g
        · have ht : hitsP b o g i = true := by
            rw [hitsP, decide_eq_true_eq]
            exact ⟨ho, hg⟩
          rw [if_pos ⟨ho, hg, hlen2⟩, ht]
          simp
        · have ht : hitsP b o g i = false := by
            rw [hitsP, decide_eq_false_iff_not]
            exact fun hc => hg hc.2
          rw [if_neg (fun hc => hg hc.2.1), ht]
          simp
      · have ht : hitsP b o g i = false := by
          rw [hitsP, decide_eq_false_iff_not]
          exact fun hc => ho hc.1
        rw [if_neg (fun hc => ho hc.1), ht]
        simp
    rw [hstep, List.countP_cons]
    by_cases hp : hitsP b o g i <;> simp [hp] <;> push_cast <;> ring

theorem tw_fold_A (b : Board) (delta hv : ℚ) (l : List ℕ) (s : PlayerState)
    (h : ∀ i ∈ l, i / 8 < s.net_A.length) (o g : ℕ) :
    tbl (l.foldl (tw_loop_step b delta hv) s).net_A o g =
      tbl s.net_A o g + (l.countP (hitsP b o g) : ℚ) * (|delta| / 8) := by
  induction l generalizing s with
  | nil => simp
  | cons i l ih =>
    rw [List.foldl_cons]
    have hlen : (tw_loop_step b delta hv s i).net_A.length = s.net_A.length := by
      simp [tw_loop_step, updT_length]
    rw [ih (tw_loop_step b delta hv s i)
      (fun j hj => by rw [hlen]; exact h j (List.mem_cons_of_mem i hj)) ]
    have hstep : tbl (tw_loop_step b delta hv s i).net_A o g =
        tbl s.net_A o g + if hitsP b o g i then |delta| / 8 else 0 := by
      rw [show (tw_loop_step b delta hv s i).net_A =
        updT s.net_A (i / 8) (get_feature b (pattern.getD i [])) (|delta| / 8) from rfl,
        tbl_updT]
      have hlen2 : i / 8 < s.net_A.length := h i (List.mem_cons_self i l)
      by_cases ho : i / 8 = o
      · by_cases hg : get_feature b (pattern.getD i []) = g
        · have ht : hitsP b o g i = true := by
            rw [hitsP, decide_eq_true_eq]
            exact ⟨ho, hg⟩
          rw [if_pos ⟨ho, hg, hlen2⟩, ht]
          simp
        · have ht : hitsP b o g i = false := by
            rw [hitsP, decide_eq_false_iff_not]
            exact fun hc => hg hc.2
          rw [if_neg (fun hc => hg hc.2.1), ht]
          simp
      · have ht : hitsP b o g i = false := by
          rw [hitsP, decide_eq_false_iff_not]
          exact fun hc => ho hc.1
        rw [if_neg (fun hc => ho hc.1), ht]
        simp
    rw [hstep, List.countP_cons]
    by_cases hp : hitsP b o g i <;> simp [hp] <;> push_cast <;> ring

theorem tw_fold_net_untouched (b : Board) (delta hv : ℚ) (l : List ℕ)
    (s : PlayerState) (o g : ℕ) (h : ∀ i ∈ l, hitsP b o g i = false) :
    tbl (l.foldl (tw_loop_step b delta hv) s).net o g = tbl s.net o g := by
  induction l generalizing s with
  | nil => rfl
  | cons i l ih =>
    rw [List.foldl_cons, ih _ (fun j hj => h j (List.mem_cons_of_mem i hj))]
    have hp := h i (List.mem_cons_self i l)
    simp only [hitsP, decide_eq_false_iff_not, not_and_or] at hp
    rw [show (tw_loop_step b delta hv s i).net =
      updT s.net (i / 8) (get_feature b (pattern.getD i []))
        (hv * (|tbl s.net_E (i / 8) (get_feature b (pattern.getD i []))| /
          tbl s.net_A (i / 8) (get_feature b (pattern.getD i []))) / 8) from rfl,
      tbl_updT]
    rw [if_neg (fun hc => by rcases hp with hp | hp; exact hp hc.1; exact hp hc.2.1)]

theorem tw_fold_A_mono (b : Board) (delta hv : ℚ) (l : List ℕ)
    (s : PlayerState) (o g : ℕ) :
    tbl s.net_A o g ≤ tbl (l.foldl (tw_loop_step b delta hv) s).net_A o g := by
  induction l generalizing s with
  | nil => exact le_refl _
  | cons i l ih =>
    rw [List.foldl_cons]
    refine le_trans ?_ (ih (tw_loop_step b delta hv s i))
    rw [show (tw_loop_step b delta hv s i).net_A =
      updT s.net_A (i / 8) (get_feature b (pattern.getD i [])) (|delta| / 8) from rfl,
      tbl_updT]
    by_cases hc : i / 8 = o ∧ get_feature b (pattern.getD i []) = g ∧ i / 8 < s.net_A.length
    · rw [if_pos hc]
      have : (0 : ℚ) ≤ |delta| / 8 := by positivity
      linarith
    · rw [if_neg hc]

theorem tw_fold_alpha (b : Board) (delta hv : ℚ) (l : List ℕ) (s : PlayerState) :
    (l.foldl (tw_loop_step b delta hv) s).alpha = s.alpha := by
  induction l generalizing s with
  | nil => rfl
  | cons i l ih =>
    rw [List.foldl_cons, ih]
    rfl

theorem tw_fold_history (b : Board) (delta hv : ℚ) (l : List ℕ) (s : PlayerState) :
    (l.foldl (tw_loop_step b delta hv) s).history = s.history := by
  induction l generalizing s with
  | nil => rfl
  | cons i l ih =>
    rw [List.foldl_cons, ih]
    rfl

/-! Claim C7: the feature encoder. -/

theorem get_feature_bound_aux (b : Board) (p : List (Fin 16)) (acc : ℕ) :
    p.foldl (fun encode i =>
      let tile := if b i > MAX_INDEX - 1 then MAX_INDEX - 1 else b i
      encode * MAX_INDEX + tile) acc < (acc + 1) * MAX_INDEX ^ p.length := by
  induction p generalizing acc with
  | nil => simpa using Nat.lt_succ_self acc
  | cons i p ih =>
    rw [List.foldl_cons]
    refine lt_of_lt_of_le (ih _) ?_
    have ht : (if b i > MAX_INDEX - 1 then MAX_INDEX - 1 else b i) ≤ MAX_INDEX - 1 := by
      split
      · exact le_refl _
      · omega
    have h1 : acc * MAX_INDEX + (if b i > MAX_INDEX - 1 then MAX_INDEX - 1 else b i) + 1 ≤
        (acc + 1) * MAX_INDEX := by
      have : 0 < MAX_INDEX := by norm_num [MAX_INDEX]
      calc acc * MAX_INDEX + (if b i > MAX_INDEX - 1 then MAX_INDEX - 1 else b i) + 1
          ≤ acc * MAX_INDEX + (MAX_INDEX - 1) + 1 := by omega
        _ = acc * MAX_INDEX + MAX_INDEX := by omega
        _ = (acc + 1) * MAX_INDEX := by ring
    calc (acc * MAX_INDEX + (if b i > MAX_INDEX - 1 then MAX_INDEX - 1 else b i) + 1)
          * MAX_INDEX ^ p.length
        ≤ ((acc + 1) * MAX_INDEX) * MAX_INDEX ^ p.length :=
          Nat.mul_le_mul_right _ h1
      _ = (acc + 1) * MAX_INDEX ^ (i :: p).length := by
          rw [List.length_cons, pow_succ]
          ring

/-- C7: for every board (clamping included) and every 6-index pattern,
`get_feature` is the most-significant-first base-`MAX_INDEX` fold of
the cell ranks clamped to `[0, MAX_INDEX - 1]`, and the result lies in
`[0, MAX_INDEX ^ 6)`; the encoder is a pure read of the board. -/
theorem C7_get_feature_encodes (b : Board) (p : List (Fin 16))
    (h : p.length = tuple_length) :
    get_feature b p = p.foldl (fun acc i => acc * MAX_INDEX + min (b i) (MAX_INDEX - 1)) 0
    ∧ get_feature b p < MAX_INDEX ^ tuple_length := by
  constructor
  · rw [get_feature]
    refine List.foldl_ext _ _ _ ?_
    intro acc i _
    have : (if b i > MAX_INDEX - 1 then MAX_INDEX - 1 else b i) = min (b i) (MAX_INDEX - 1) := by
      rcases le_or_lt (b i) (MAX_INDEX - 1) with hle | hlt
      · rw [if_neg (by omega), min_eq_left hle]
      · rw [if_pos (by omega), min_eq_right (by omega)]
    simp only [this]
  · have := get_feature_bound_aux b p 0
    rw [h] at this
    simpa [get_feature] using this

/-- Closed instance of C7 at a concrete board and pattern. -/
theorem C7_witness :
    get_feature dBoard (pattern.getD 0 []) =
      (pattern.getD 0 []).foldl (fun acc i => acc * MAX_INDEX + min (dBoard i) (MAX_INDEX - 1)) 0
    ∧ get_feature dBoard (pattern.getD 0 []) < MAX_INDEX ^ tuple_length :=
  C7_get_feature_encodes dBoard (pattern.getD 0 []) rfl

/-! Claim C8: the network value function. -/

/-- C8: `board_value` is exactly the sum, over the 32 patterns `i`, of
`net[i / 8][get_feature(board, pattern[i])]` — one weight table shared
per orbit of 8 consecutive patterns; it mutates nothing. -/
theorem C8_board_value_sum (net : List Table) (b : Board) :
    board_value net b =
      ∑ i ∈ Finset.range tuple_number,
        tbl net (i / 8) (get_feature b (pattern.getD i [])) := by
  rw [board_value]
  exact foldl_add_range (fun i => tbl net (i / 8) (get_feature b (pattern.getD i []))) tuple_number

/-- The constant-epsilon table (the initialized accumulator tables). -/
def epsTbl : Table := fun _ => epsilon

/-- The constant-one table, used for concrete evaluations. -/
def oneTable : Table := fun _ => 1

theorem tbl_four (t : Table) (o f : ℕ) (h : o < 4) :
    tbl [t, t, t, t] o f = t f := by
  rcases o with _ | _ | _ | _ | o
  · rfl
  · rfl
  · rfl
  · rfl
  · omega

theorem board_value_four (t : Table) (b : Board) :
    board_value [t, t, t, t] b =
      ∑ i ∈ Finset.range tuple_number, t (get_feature b (pattern.getD i [])) := by
  rw [board_value, foldl_add_range
    (fun i => tbl [t, t, t, t] (i / 8) (get_feature b (pattern.getD i []))) tuple_number]
  refine Finset.sum_congr rfl ?_
  intro i hi
  rw [Finset.mem_range, tuple_number] at hi
  exact tbl_four t (i / 8) _ (by omega)

theorem board_value_zero_four (b : Board) :
    board_value [zeroTable, zeroTable, zeroTable, zeroTable] b = 0 := by
  rw [board_value_four]
  exact Finset.sum_eq_zero (fun i _ => rfl)

theorem board_value_one_four (b : Board) :
    board_value [oneTable, oneTable, oneTable, oneTable] b = 32 := by
  rw [board_value_four]
  rw [Finset.sum_congr rfl
    (fun i _ => show oneTable (get_feature b (pattern.getD i [])) = 1 from rfl),
    Finset.sum_const, tuple_number, Finset.card_range]
  norm_num

/-! Claim C1: the decision node on a terminal board. -/

/-- C1 (amended): on a board where all 4 slides are invalid, the
decision node appends nothing to history, but the returned action is
`action::slide(0)` (the initial `best_op`), not the default-constructed
no-op action. -/
theorem C1_terminal_take_action (slide : Slide) (s : PlayerState) (b : Board)
    (h : ∀ op ∈ opcode, slide b op = none) :
    take_action slide s b = (GameAction.slideAct 0, s) := by
  have h0 := h 0 (by simp [opcode])
  have h1 := h 1 (by simp [opcode])
  have h2 := h 2 (by simp [opcode])
  have h3 := h 3 (by simp [opcode])
  rw [take_action, opcode]
  simp only [List.foldl_cons, List.foldl_nil, h0, h1, h2, h3]
  simp

/-- A terminal board: a full checkerboard of ranks 1 and 2, with no
empty cell and no mergeable neighbors, so every slide is invalid. -/
def bT : Board := fun i => if ((i : ℕ) / 4 + (i : ℕ) % 4) % 2 = 0 then 1 else 2

/-- A concrete configured player state (4 tables per vector, as after
initialization). -/
def s0 : PlayerState :=
  ⟨[zeroTable, zeroTable, zeroTable, zeroTable],
   [epsTbl, epsTbl, epsTbl, epsTbl],
   [epsTbl, epsTbl, epsTbl, epsTbl],
   1 / 10, []⟩

/-- C1 fails as stated: at the concrete terminal board the returned
action is `slide(0)`, which is not the sentinel no-op action. -/
theorem C1_counterexample :
    (take_action slide2048 s0 bT).1 = GameAction.slideAct 0 ∧
    (take_action slide2048 s0 bT).1 ≠ GameAction.nop := by
  constructor
  · decide
  · decide

/-- Closed instance of the amended C1 at the concrete terminal board. -/
theorem C1_witness :
    take_action slide2048 s0 bT = (GameAction.slideAct 0, s0) :=
  C1_terminal_take_action slide2048 s0 bT (by decide)

/-! Claim C2: the chance node on a full board. -/

/-- C2 (amended): on a board with zero empty cells and depth at least
1, the chance node accumulates nothing, reaches the unguarded division
with `empty_grid = 0`, and therefore computes `0.0f / 0.0f` — NaN
(`none`), not 0. -/
theorem C2_full_board_nan (slide : Slide) (net : List Table) (b : Board) (d : ℕ)
    (hfull : ∀ pos : Fin 16, b pos ≠ 0) (hd : 1 ≤ d) :
    put_tile slide net b d = none := by
  cases d with
  | zero => omega
  | succ e =>
    show fdiv ((List.finRange 16).foldl
      (ptBody (fun bb => put_tile slide net bb e) slide b)
      ((some 0 : Option ℚ), (0 : ℚ))).1 _ = none
    rw [foldl_skip (ptBody (fun bb => put_tile slide net bb e) slide b)
      (List.finRange 16) ((some 0 : Option ℚ), (0 : ℚ))
      (fun acc pos _ => if_pos (hfull pos))]
    rfl

/-- C2 fails as stated: at the concrete full board with depth 1 the
chance node returns NaN (`none`), not 0, and the division it performs
has a zero denominator. -/
theorem C2_counterexample :
    put_tile slide2048 s0.net bT 1 = none ∧
    put_tile slide2048 s0.net bT 1 ≠ some 0 := by
  constructor
  · decide
  · decide

/-- Closed instance of the amended C2 at the concrete full board. -/
theorem C2_witness : put_tile slide2048 s0.net bT 1 = none :=
  C2_full_board_nan slide2048 s0.net bT 1 (by decide) (by decide)

/-! Claim C3: the learning driver on an empty history. -/

/-- C3: with an empty history, `close_episode` immediately reads
`history[history.size() - 1]`, an out-of-bounds access (undefined
behavior), modelled as `none` — it is not the no-op the spec
requires. -/
theorem C3_empty_history_oob (s : PlayerState) (h : s.history = []) :
    close_episode s = none := by
  rw [close_episode, h]
  rfl

/-- Closed instance of C3 at a concrete state with empty history. -/
theorem C3_witness : close_episode s0 = none :=
  C3_empty_history_oob s0 rfl

/-! Claim C4: the backward-step TD error and trace update. -/

/-- C4 (amended): the backward step computes
`delta = reward + value(next) - value(prev)` as claimed, but the trace
update is `trace = alpha * delta + trace * lembda` with `lembda = 1/2`
— the `alpha * delta` term is not scaled by `(1 - lambda)`, so the
update matches neither of the two policies the claim allows. -/
theorem C4_backward_trace (s : PlayerState) (prev next : Board) (reward hv : ℚ) :
    (train_weights_bw s prev next reward hv).2 =
      s.alpha * (reward + board_value s.net next - board_value s.net prev) + hv * lembda
    ∧ lembda = 1 / 2 :=
  ⟨rfl, rfl⟩

/-- A concrete state with `alpha = 1` and all-zero weights. -/
def s4 : PlayerState :=
  ⟨[zeroTable, zeroTable, zeroTable, zeroTable],
   [epsTbl, epsTbl, epsTbl, epsTbl],
   [epsTbl, epsTbl, epsTbl, epsTbl],
   1, []⟩

/-- The TD error of the concrete backward step used against C4:
`delta = 1 + value(dBoard) - value(dBoard)`. -/
def deltaC4 : ℚ := 1 + board_value s4.net dBoard - board_value s4.net dBoard

/-- C4 fails as stated: at a concrete step with `alpha = 1`,
`delta = 1` and incoming trace 1, the computed trace `3/2` equals
neither `alpha * delta` (policy (a)) nor
`alpha * delta * (1 - lambda) + trace * lambda` (policy (b)). -/
theorem C4_counterexample :
    (train_weights_bw s4 dBoard dBoard 1 1).2 = 3 / 2 ∧
    ¬((train_weights_bw s4 dBoard dBoard 1 1).2 = s4.alpha * deltaC4 ∨
      (train_weights_bw s4 dBoard dBoard 1 1).2 =
        s4.alpha * deltaC4 * (1 - lembda) + 1 * lembda) := by
  have hd : deltaC4 = 1 := by
    rw [deltaC4, show s4.net = [zeroTable, zeroTable, zeroTable, zeroTable] from rfl,
      board_value_zero_four]
    norm_num
  have h2 : (train_weights_bw s4 dBoard dBoard 1 1).2 = 3 / 2 := by
    show s4.alpha * (1 + board_value s4.net dBoard - board_value s4.net dBoard) +
      1 * lembda = 3 / 2
    rw [show s4.net = [zeroTable, zeroTable, zeroTable, zeroTable] from rfl,
      board_value_zero_four, show s4.alpha = 1 from rfl, lembda]
    norm_num
  refine ⟨h2, ?_⟩
  rw [h2, hd, show s4.alpha = 1 from rfl, lembda]
  norm_num

/-! Claim C5: the accumulator updates in the training loop. -/

/-- C5 (amended): at both the terminal and the backward step, each of
the 32 pattern applications adds `delta / 8` to `E` and `|delta| / 8`
to `A` — the same factor-8 orbit sharing as the weight update, not the
full TD error; and at the terminal step the accumulated `delta` is
`+value(afterstate)` (the minus sign of the claim enters only the
trace seed).  Stated per entry `(o, g)`: the new accumulator value is
the old one plus `delta / 8` (resp. `|delta| / 8`) times the number of
patterns hitting that entry. -/
theorem C5_accumulators (s : PlayerState) (b prev next : Board) (reward hv : ℚ)
    (hE : s.net_E.length = 4) (hA : s.net_A.length = 4) (o g : ℕ) :
    (tbl (train_weights_final s b hv).1.net_E o g =
       tbl s.net_E o g + ((List.range tuple_number).countP (hitsP b o g) : ℚ) *
         (board_value s.net b / 8)
     ∧ tbl (train_weights_final s b hv).1.net_A o g =
       tbl s.net_A o g + ((List.range tuple_number).countP (hitsP b o g) : ℚ) *
         (|board_value s.net b| / 8))
    ∧ (tbl (train_weights_bw s prev next reward hv).1.net_E o g =
       tbl s.net_E o g + ((List.range tuple_number).countP (hitsP prev o g) : ℚ) *
         ((reward + board_value s.net next - board_value s.net prev) / 8)
     ∧ tbl (train_weights_bw s prev next reward hv).1.net_A o g =
       tbl s.net_A o g + ((List.range tuple_number).countP (hitsP prev o g) : ℚ) *
         (|reward + board_value s.net next - board_value s.net prev| / 8)) := by
  have hbE : ∀ i ∈ List.range tuple_number, i / 8 < s.net_E.length := by
    intro i hi
    rw [hE]
    rw [List.mem_range, tuple_number] at hi
    omega
  have hbA : ∀ i ∈ List.range tuple_number, i / 8 < s.net_A.length := by
    intro i hi
    rw [hA]
    rw [List.mem_range, tuple_number] at hi
    omega
  exact ⟨⟨tw_fold_E _ _ _ _ s hbE o g, tw_fold_A _ _ _ _ s hbA o g⟩,
         ⟨tw_fold_E _ _ _ _ s hbE o g, tw_fold_A _ _ _ _ s hbA o g⟩⟩

/-- A concrete state with all-one weights (so every board value is 32)
and `alpha = 1`. -/
def s5 : PlayerState :=
  ⟨[oneTable, oneTable, oneTable, oneTable],
   [epsTbl, epsTbl, epsTbl, epsTbl],
   [epsTbl, epsTbl, epsTbl, epsTbl],
   1, []⟩

/-- A board whose cell ranks are the cell indices (distinct features
within each orbit). -/
def b5 : Board := fun i => (i : ℕ)

/-- The feature of pattern 0 on `b5`. -/
def f5 : ℕ := get_feature b5 (pattern.getD 0 [])

/-- C5 fails as stated: at the terminal step on `b5` with all-one
weights the TD error is `delta = 32` (`value(afterstate)`, positive),
yet `E[f]` grows by `delta / 8 = 4` only — neither by the claim's full
`delta` nor by its terminal `delta = -value`. -/
theorem C5_counterexample :
    tbl (train_weights_final s5 b5 0).1.net_E 0 f5 = epsilon + 4 ∧
    board_value s5.net b5 = 32 ∧
    epsilon + 4 ≠ epsilon + (-(board_value s5.net b5)) ∧
    epsilon + 4 ≠ epsilon + board_value s5.net b5 := by
  have hbv : board_value s5.net b5 = 32 := by
    rw [show s5.net = [oneTable, oneTable, oneTable, oneTable] from rfl,
      board_value_one_four]
  have hcnt : (List.range tuple_number).countP (hitsP b5 0 f5) = 1 := by decide
  have hlen : ∀ i ∈ List.range tuple_number, i / 8 < s5.net_E.length := by
    intro i hi
    rw [List.mem_range, tuple_number] at hi
    rw [show s5.net_E.length = 4 from rfl]
    omega
  have hE := tw_fold_E b5 (board_value s5.net b5) (-s5.alpha * board_value s5.net b5)
    (List.range tuple_number) s5 hlen 0 f5
  refine ⟨?_, hbv, ?_, ?_⟩
  · show tbl ((List.range tuple_number).foldl
      (tw_loop_step b5 (board_value s5.net b5) (-s5.alpha * board_value s5.net b5)) s5).net_E
        0 f5 = epsilon + 4
    rw [hE, hcnt, hbv, show tbl s5.net_E 0 f5 = epsilon from rfl]
    norm_num
  · rw [hbv]
    norm_num [epsilon]
  · rw [hbv]
    norm_num [epsilon]

/-- Closed instance of the amended C5 at a concrete input. -/
theorem C5_witness :
    tbl (train_weights_final s5 b5 0).1.net_E 0 f5 =
      tbl s5.net_E 0 f5 + ((List.range tuple_number).countP (hitsP b5 0 f5) : ℚ) *
        (board_value s5.net b5 / 8) :=
  (C5_accumulators s5 b5 dBoard dBoard 0 0 rfl rfl 0 f5).1.1

/-! Claim C6: the learning driver on a single-entry history. -/

/-- C6: with exactly one history entry, `close_episode` performs only
the terminal-step update (the backward loop body never runs), the
trace is seeded as `-alpha * value(afterstate)` (TD target 0), only
entries hit by the 32 patterns of that afterstate are touched in the
weight tables, and the history is left empty. -/
theorem C6_single_entry (s : PlayerState) (e : HEntry) (h : s.history = [e]) :
    close_episode s = some { (train_weights_final s e.afterstate 0).1 with history := [] }
    ∧ (train_weights_final s e.afterstate 0).2 = -s.alpha * board_value s.net e.afterstate
    ∧ ∀ o g, (List.range tuple_number).countP (hitsP e.afterstate o g) = 0 →
        tbl (train_weights_final s e.afterstate 0).1.net o g = tbl s.net o g := by
  refine ⟨?_, rfl, ?_⟩
  · rw [close_episode, h]
    rfl
  · intro o g hc
    rw [List.countP_eq_zero] at hc
    exact tw_fold_net_untouched e.afterstate _ _ _ s o g
      (fun i hi => by simpa using hc i hi)

/-- A concrete single-entry history state. -/
def s6 : PlayerState :=
  ⟨[zeroTable, zeroTable, zeroTable, zeroTable],
   [epsTbl, epsTbl, epsTbl, epsTbl],
   [epsTbl, epsTbl, epsTbl, epsTbl],
   1 / 10, [⟨b5, 4⟩]⟩

/-- Closed instance of C6 at the concrete single-entry state. -/
theorem C6_witness :
    close_episode s6 =
      some { (train_weights_final s6 (HEntry.mk b5 4).afterstate 0).1 with history := [] } :=
  (C6_single_entry s6 ⟨b5, 4⟩ rfl).1

/-! Claim C9: weight persistence round-trip. -/

/-- C9: saving a network and loading the record into a fresh agent of
identical configuration (the three table vectors of equal length)
restores all three vectors exactly, hence `value(board)` is identical
for every board. -/
theorem C9_roundtrip (s sf : PlayerState)
    (hA : s.net_A.length = s.net.length) (hE : s.net_E.length = s.net.length) :
    (load_weights (save_weights s) sf).net = s.net
    ∧ (load_weights (save_weights s) sf).net_A = s.net_A
    ∧ (load_weights (save_weights s) sf).net_E = s.net_E
    ∧ ∀ b : Board,
        board_value (load_weights (save_weights s) sf).net b = board_value s.net b := by
  have hk : (s.net.length + s.net_A.length + s.net_E.length) / 3 = s.net.length := by
    omega
  have hnet : (load_weights (save_weights s) sf).net = s.net := by
    show (s.net ++ s.net_A ++ s.net_E).take
      ((s.net.length + s.net_A.length + s.net_E.length) / 3) = s.net
    rw [hk, List.append_assoc]
    exact List.take_left s.net (s.net_A ++ s.net_E)
  have hnetA : (load_weights (save_weights s) sf).net_A = s.net_A := by
    show ((s.net ++ s.net_A ++ s.net_E).drop
        ((s.net.length + s.net_A.length + s.net_E.length) / 3)).take
      ((s.net.length + s.net_A.length + s.net_E.length) / 3) = s.net_A
    rw [hk, List.append_assoc, List.drop_left s.net (s.net_A ++ s.net_E), ← hA]
    exact List.take_left s.net_A s.net_E
  have hnetE : (load_weights (save_weights s) sf).net_E = s.net_E := by
    show (((s.net ++ s.net_A ++ s.net_E).drop
          ((s.net.length + s.net_A.length + s.net_E.length) / 3)).drop
        ((s.net.length + s.net_A.length + s.net_E.length) / 3)).take
      ((s.net.length + s.net_A.length + s.net_E.length) / 3) = s.net_E
    rw [hk, List.append_assoc, List.drop_left s.net (s.net_A ++ s.net_E), ← hA,
      List.drop_left s.net_A s.net_E, hA, ← hE]
    exact List.take_length s.net_E
  exact ⟨hnet, hnetA, hnetE, fun b => by rw [hnet]⟩

/-- Closed instance of C9 at a concrete state and a fresh state. -/
theorem C9_witness :
    board_value (load_weights (save_weights s5) s0).net dBoard =
      board_value s5.net dBoard :=
  (C9_roundtrip s5 s0 rfl rfl).2.2.2 dBoard

/-! Claim C10: the adaptive-step-size accumulator invariant. -/

/-- The invariant of the `net_A` accumulators: every entry of the 4
tables (on the real index range) is at least `epsilon`. -/
def A_ok (s : PlayerState) : Prop :=
  ∀ o g, o < 4 → g < map_size → epsilon ≤ tbl s.net_A o g

theorem init_netA0_eval (g : ℕ) (hg : g < map_size) : init_netA0 g = epsilon := by
  rw [init_netA0, foldl_writeT_mem, if_pos (List.mem_range.mpr hg)]

/-- C10: after `init_weights` every `net_A` entry equals `epsilon`;
both `train_weights` overloads only ever add `|delta| / 8 ≥ 0` to
`net_A`, so every entry stays at least `epsilon`; hence every entry is
strictly positive and never zero, and the adaptive rate
`|E[f]| / A[f]` never divides by zero. -/
theorem C10_A_invariant :
    (∀ a o g, o < 4 → g < map_size → tbl (init_weights a).net_A o g = epsilon)
    ∧ (∀ a, A_ok (init_weights a))
    ∧ (∀ s b hv, A_ok s → A_ok (train_weights_final s b hv).1)
    ∧ (∀ s prev next reward hv, A_ok s → A_ok (train_weights_bw s prev next reward hv).1)
    ∧ (∀ s o g, o < 4 → g < map_size → A_ok s →
        0 < tbl s.net_A o g ∧ tbl s.net_A o g ≠ 0) := by
  have hinit : ∀ a o g, o < 4 → g < map_size → tbl (init_weights a).net_A o g = epsilon := by
    intro a o g ho hg
    rw [show (init_weights a).net_A = [init_netA0, init_netA0, init_netA0, init_netA0]
      from rfl, tbl_four _ _ _ ho, init_netA0_eval g hg]
  refine ⟨hinit, ?_, ?_, ?_, ?_⟩
  · intro a o g ho hg
    rw [hinit a o g ho hg]
  · intro s b hv h o g ho hg
    exact le_trans (h o g ho hg)
      (tw_fold_A_mono b (board_value s.net b) (-s.alpha * board_value s.net b)
        (List.range tuple_number) s o g)
  · intro s prev next reward hv h o g ho hg
    exact le_trans (h o g ho hg)
      (tw_fold_A_mono prev
        (reward + board_value s.net next - board_value s.net prev)
        (s.alpha * (reward + board_value s.net next - board_value s.net prev) + hv * lembda)
        (List.range tuple_number) s o g)
  · intro s o g ho hg h
    have hpos : 0 < tbl s.net_A o g :=
      lt_of_lt_of_le (by norm_num [epsilon]) (h o g ho hg)
    exact ⟨hpos, ne_of_gt hpos⟩

/-- Closed instance of C10: at a concrete state satisfying the
invariant, one training call keeps `net_A[0][0]` at least `epsilon`,
and after initialization the entry equals `epsilon`. -/
theorem C10_witness :
    epsilon ≤ tbl (train_weights_final s0 dBoard 0).1.net_A 0 0 ∧
    tbl (init_weights 0).net_A 0 0 = epsilon := by
  have hok : A_ok s0 := by
    intro o g ho hg
    rw [show s0.net_A = [epsTbl, epsTbl, epsTbl, epsTbl] from rfl, tbl_four _ _ _ ho]
    exact le_refl _
  constructor
  · exact C10_A_invariant.2.2.1 s0 dBoard 0 hok 0 0 (by norm_num)
      (by norm_num [map_size, MAX_INDEX, tuple_length])
  · exact C10_A_invariant.1 0 0 0 (by norm_num)
      (by norm_num [map_size, MAX_INDEX, tuple_length])

end TCG
